import Mathlib

/-!
Shallow embedding of the dummy source plugin (src/plugins/dummy/dummy.go).

The session batch-production algorithm (`NextBatch`), the field extractor
(`Extract`) and the event renderer (`eventString`) are translated directly
from the Go source.  Go's `uint64` arithmetic is modelled as `Nat` reduced
modulo `2 ^ 64`; Go's `int`/`int64` values are modelled as `Int` with the
two's-complement reinterpretation made explicit (`toInt64`).  The shared
pseudo-random source (`rand.Int63n`) is modelled as an oracle stream of
draws, one draw per production step; a call of `Int63n` with a
non-positive bound panics in Go, which the model renders as `none`.
The host-supplied event sink is modelled by an oracle `writeOk : Nat → Bool`
telling whether the write of the n-th event of a call succeeds.
Wall-clock timestamps are irrelevant to every property treated here and
are omitted from the model.
-/

/-- The uint64 modulus `2 ^ 64`. -/
def U64 : Nat := 2 ^ 64

/-- Reinterpret a uint64 value as Go `int64` (two's complement). -/
def toInt64 (x : Nat) : Int :=
  if x % U64 < 2 ^ 63 then ((x % U64 : Nat) : Int)
  else ((x % U64 : Nat) : Int) - (U64 : Int)

/-- The numeric value of a decimal ASCII digit, `none` for any other
character. -/
def digitVal (c : Char) : Option Nat :=
  if '0' ≤ c ∧ c ≤ '9' then some (c.toNat - 48) else none

/-- Decimal value of a digit string, accumulator style; `none` as soon as a
non-digit is met. -/
def decValAux : List Char → Nat → Option Nat
  | [], acc => some acc
  | c :: rest, acc =>
    match digitVal c with
    | some d => decValAux rest (acc * 10 + d)
    | none => none

/-- Decimal digits of a natural number, least-significant digit produced by
repeated division exactly as `strconv`'s formatting loop does.  The fuel
argument only serves termination; `n + 1` is always enough. -/
def uitoaAux : Nat → Nat → List Char
  | 0, _ => []
  | fuel + 1, n =>
    if n < 10 then [Char.ofNat (48 + n)]
    else uitoaAux fuel (n / 10) ++ [Char.ofNat (48 + n % 10)]

/-- Decimal rendering of a natural number. -/
def uitoa (n : Nat) : String := ⟨uitoaAux (n + 1) n⟩

/-- Model of `strconv.Itoa` on an `int64` value: sign, then decimal digits of the
absolute value. -/
def itoa (v : Int) : String :=
  if v < 0 then "-" ++ uitoa (-v).toNat else uitoa v.toNat

/-- Model of `strconv.Itoa(int(x))` for a uint64 value `x`: the value is first
reinterpreted as a signed 64-bit integer. -/
def itoa64 (x : Nat) : String := itoa (toInt64 x)

/-- Go `strconv.Atoi`: optional single sign, one or more decimal digits,
nothing else; values outside the `int64` range are a range error (the Go
function returns a non-nil error, which both callers in the source
propagate). -/
def atoi (s : String) : Except String Int :=
  let p :=
    match s.data with
    | '-' :: rest => (true, rest)
    | '+' :: rest => (false, rest)
    | l => (false, l)
  match decValAux p.2 0 with
  | none => .error ("strconv.Atoi: parsing " ++ s ++ ": invalid syntax")
  | some v =>
    if p.2 = [] then .error ("strconv.Atoi: parsing " ++ s ++ ": invalid syntax")
    else
      let iv : Int := if p.1 then -(v : Int) else (v : Int)
      if iv < -(2 ^ 63) ∨ (2 ^ 63 - 1 : Int) < iv then
        .error ("strconv.Atoi: parsing " ++ s ++ ": value out of range")
      else .ok iv

/-- Generator state (`MyPlugin`): the configured jitter bound.  The random
source it also owns is modelled as an oracle stream passed to the
operations. -/
structure MyPlugin where
  jitter : Nat
deriving DecidableEq

/-- Session state (`MyInstance`): `maxEvents`, the `counter` of events
returned so far, and the current `sample` value. -/
structure MyInstance where
  maxEvents : Nat
  counter : Nat
  sample : Nat
deriving DecidableEq

/-- The session produced by `Open` for params `start`, `maxEvents`
(both uint64 values). -/
def openInstance (start maxEvents : Nat) : MyInstance :=
  ⟨maxEvents % U64, 0, start % U64⟩

/-- Go `rand.Int63n(n)`: panics (`none`) when `n ≤ 0`, otherwise a value in
`[0, n)` derived from the current draw of the oracle stream. -/
def randInt63n (draw : Nat) (n : Int) : Option Nat :=
  if n ≤ 0 then none else some (draw % n.toNat)

/-- The jitter amount of one production step:
`uint64(rand.Int63n(int64(jitter + 1)))`, where `jitter + 1` is computed in
uint64 arithmetic and then reinterpreted as `int64`. -/
def jitterAmount (jit draw : Nat) : Option Nat :=
  randInt63n draw (toInt64 ((jit + 1) % U64))

/-- One production step on the sample:
`m.sample += 1 + uint64(rand.Int63n(int64(jitter + 1)))` in uint64
arithmetic; `none` when the `Int63n` call panics. -/
def stepSample (jit draw s : Nat) : Option Nat :=
  (jitterAmount jit draw).map (fun j => (s + 1 + j) % U64)

/-- Outcome of one `NextBatch` call.  `ok n inst events` is a normal return
of `n` with the updated session state and the chronological list of
(sample, payload) pairs fully written to the sink; `eof` is the
`(0, sdk.ErrEOF)` return; `writeError` is the `(0, err)` return after a
failed write, with the state as the code leaves it and the events written
before the failure; `panic` is a runtime fault inside `rand.Int63n`. -/
inductive NBOutcome where
  | ok (n : Nat) (inst : MyInstance) (events : List (Nat × String))
  | eof (inst : MyInstance)
  | writeError (inst : MyInstance) (events : List (Nat × String))
  | panic
deriving DecidableEq

/-- The session state an outcome leaves behind, when the call returns. -/
def NBOutcome.inst? : NBOutcome → Option MyInstance
  | .ok _ m _ => some m
  | .eof m => some m
  | .writeError m _ => some m
  | .panic => none

/-- The list of events fully written to the sink by an outcome. -/
def NBOutcome.events : NBOutcome → List (Nat × String)
  | .ok _ _ evs => evs
  | .writeError _ evs => evs
  | _ => []

/-- The production loop of `NextBatch`:
`for n = 0; m.counter < m.maxEvents && n < evts.Len(); n++ { ... }` with
`fuel = evts.Len() - n` the remaining capacity.  The body increments
`counter`, advances `sample`, renders the payload with
`strconv.Itoa(int(sample))` and writes it; a failed write returns
`(0, err)` at once, with `counter` and `sample` already updated for the
event whose write failed. -/
def nextBatchLoop (jit : Nat) (draws : Nat → Nat) (writeOk : Nat → Bool)
    (m : MyInstance) (n : Nat) (fuel : Nat) (acc : List (Nat × String)) :
    NBOutcome :=
  match fuel with
  | 0 => .ok n m acc.reverse
  | fuel + 1 =>
    if m.counter < m.maxEvents then
      match stepSample jit (draws n) m.sample with
      | none => .panic
      | some s =>
        if writeOk n then
          nextBatchLoop jit draws writeOk ⟨m.maxEvents, m.counter + 1, s⟩
            (n + 1) fuel ((s, itoa64 s) :: acc)
        else
          .writeError ⟨m.maxEvents, m.counter + 1, s⟩ acc.reverse
    else
      .ok n m acc.reverse

/-- Model of `MyInstance.NextBatch`: returns EOF before any production work when
`counter >= maxEvents`, otherwise runs the production loop with the
capacity `evts.Len()` of the host-supplied batch. -/
def NextBatch (jit : Nat) (draws : Nat → Nat) (writeOk : Nat → Bool)
    (m : MyInstance) (cap : Nat) : NBOutcome :=
  if m.maxEvents ≤ m.counter then .eof m
  else nextBatchLoop jit draws writeOk m 0 cap []

/-- A sequence of `NextBatch` calls with the given capacities, all writes
succeeding.  Returns the total number of events produced, the final
session state and the concatenated chronological event list.  The draw
oracle is indexed by the session's production count so far, which is the
number of draws consumed when every write succeeds. -/
def runCalls (jit : Nat) (draws : Nat → Nat) :
    MyInstance → List Nat → Nat × MyInstance × List (Nat × String)
  | m, [] => (0, m, [])
  | m, cap :: rest =>
    match NextBatch jit (fun k => draws (m.counter + k)) (fun _ => true) m cap with
    | .ok n m' evs =>
      let r := runCalls jit draws m' rest
      (n + r.1, r.2.1, evs ++ r.2.2)
    | .eof m' => runCalls jit draws m' rest
    | .writeError m' evs => (0, m', evs)
    | .panic => (0, m, [])

/-- A typed value written through `req.SetValue`. -/
inductive FieldValue where
  | u64 (v : Nat)
  | str (s : String)
deriving DecidableEq

/-- Result of an `Extract` call: success, a returned Go error, or a
runtime fault (the integer division by zero in the `dummy.divisible`
branch). -/
inductive ExtractResult where
  | ok (v : FieldValue)
  | err (msg : String)
  | panic
deriving DecidableEq

/-- Whether an `Extract` outcome is a returned (typed) error. -/
def ExtractResult.isErr : ExtractResult → Bool
  | .err _ => true
  | _ => false

/-- Model of `MyPlugin.Extract`: decode the payload with `strconv.Atoi`, then
dispatch on the field id.  In the `dummy.divisible` branch the source
evaluates `evtVal % divisor` unconditionally, which is a runtime fault
(integer divide by zero) when the parsed divisor is zero; `uint64(evtVal)`
in the `dummy.value` branch is the two's-complement reinterpretation. -/
def Extract (fieldID : Nat) (field arg payload : String) : ExtractResult :=
  match atoi payload with
  | .error e => .err e
  | .ok evtVal =>
    if fieldID = 0 then
      match atoi arg with
      | .error _ =>
        .err ("argument to dummy.divisible " ++ arg ++
          " could not be converted to number")
      | .ok divisor =>
        if divisor = 0 then .panic
        else if Int.tmod evtVal divisor = 0 then .ok (.u64 1)
        else .ok (.u64 0)
    else if fieldID = 1 then .ok (.u64 ((evtVal % (U64 : Int)).toNat))
    else if fieldID = 2 then .ok (.str payload)
    else .err ("no known field: " ++ field)

/-- Model of `MyPlugin.String`: read the whole payload stream and interpolate the
bytes verbatim; the read result is modelled as an `Except`. -/
def eventString (input : Except String String) : Except String String :=
  match input with
  | .error e => .error e
  | .ok s => .ok ("\x7b\"sample\": \"" ++ s ++ "\"\x7d")

/-- The chain predicate of successive sample values: each element follows
from its predecessor by one production step, i.e. differs from it by some
`d` with `1 ≤ d ≤ jit + 1`, modulo `2 ^ 64`. -/
def sampleChain (jit : Nat) : Nat → List Nat → Prop
  | _, [] => True
  | s, x :: rest =>
    (∃ d, 1 ≤ d ∧ d ≤ jit + 1 ∧ x = (s + d) % U64) ∧ sampleChain jit x rest

/-- The invariant `counter ≤ maxEvents` on the state an outcome leaves
behind. -/
def counterInv (o : NBOutcome) : Prop :=
  ∀ m' ∈ o.inst?, m'.counter ≤ m'.maxEvents

/-- Whether an outcome is the `(0, err)` return of a failed write. -/
def NBOutcome.isWriteError : NBOutcome → Bool
  | .writeError _ _ => true
  | _ => false

/-- Every event written by an outcome carries the payload
`strconv.Itoa(int(sample))` for its (uint64) sample value. -/
def eventsWellFormed (o : NBOutcome) : Prop :=
  ∀ e ∈ o.events, e.2 = itoa64 e.1 ∧ e.1 < U64

/-- Property that `p` is the plain decimal rendering of `s`: it parses back to `s`, all
its characters are decimal digits (in particular there is no sign), and it
has no leading zero. -/
def decDigitsOf (p : String) (s : Nat) : Prop :=
  decValAux p.data 0 = some s
  ∧ (∀ c ∈ p.data, (digitVal c).isSome)
  ∧ (1 ≤ s → p.data.head? ≠ some '0')

/-! ## Helper lemmas: decimal rendering -/

lemma digitVal_ofNat (n : Nat) (h : n < 10) :
    digitVal (Char.ofNat (48 + n)) = some n := by
  interval_cases n <;> decide

lemma decValAux_append (l1 l2 : List Char) (acc a : Nat)
    (h : decValAux l1 acc = some a) :
    decValAux (l1 ++ l2) acc = decValAux l2 a := by
  induction l1 generalizing acc with
  | nil => simp [decValAux] at h; simp [h]
  | cons c rest ih =>
    simp only [decValAux] at h ⊢
    cases hd : digitVal c with
    | none => rw [hd] at h; exact absurd h (by simp)
    | some d =>
      rw [hd] at h
      simpa using ih _ h

lemma uitoaAux_ne_nil (fuel n : Nat) (h : n < fuel) :
    uitoaAux fuel n ≠ [] := by
  cases fuel with
  | zero => omega
  | succ fuel =>
    by_cases h10 : n < 10 <;> simp [uitoaAux, h10]

lemma uitoaAux_decVal (fuel : Nat) :
    ∀ n acc, n < fuel →
      decValAux (uitoaAux fuel n) acc
        = some (acc * 10 ^ (uitoaAux fuel n).length + n) := by
  induction fuel with
  | zero => intro n acc h; omega
  | succ fuel ih =>
    intro n acc h
    by_cases h10 : n < 10
    · simp only [uitoaAux, if_pos h10, decValAux, digitVal_ofNat n h10,
        List.length_singleton]
      rw [pow_one]
    · simp only [uitoaAux, if_neg h10]
      have hdiv : n / 10 < fuel := by
        have := Nat.div_lt_self (by omega : 0 < n) (by omega : 1 < 10)
        omega
      have hrec := ih (n / 10) acc hdiv
      rw [decValAux_append _ _ _ _ hrec]
      simp only [decValAux, digitVal_ofNat (n % 10) (Nat.mod_lt n (by omega)),
        List.length_append, List.length_singleton]
      congr 1
      have hn : n / 10 * 10 + n % 10 = n := by omega
      calc (acc * 10 ^ (uitoaAux fuel (n / 10)).length + n / 10) * 10 + n % 10
          = acc * (10 ^ (uitoaAux fuel (n / 10)).length * 10)
            + (n / 10 * 10 + n % 10) := by ring
        _ = acc * 10 ^ ((uitoaAux fuel (n / 10)).length + 1) + n := by
            rw [hn, pow_succ]

lemma uitoaAux_digits (fuel : Nat) :
    ∀ n, n < fuel → ∀ c ∈ uitoaAux fuel n, (digitVal c).isSome := by
  induction fuel with
  | zero => intro n h; omega
  | succ fuel ih =>
    intro n h c hc
    by_cases h10 : n < 10
    · simp only [uitoaAux, if_pos h10, List.mem_singleton] at hc
      subst hc
      rw [digitVal_ofNat n h10]
      rfl
    · simp only [uitoaAux, if_neg h10, List.mem_append, List.mem_singleton] at hc
      rcases hc with hc | hc
      · have hdiv : n / 10 < fuel := by
          have := Nat.div_lt_self (by omega : 0 < n) (by omega : 1 < 10)
          omega
        exact ih (n / 10) hdiv c hc
      · subst hc
        rw [digitVal_ofNat (n % 10) (Nat.mod_lt n (by omega))]
        rfl

lemma uitoaAux_head (fuel : Nat) :
    ∀ n, n < fuel → 1 ≤ n → (uitoaAux fuel n).head? ≠ some '0' := by
  induction fuel with
  | zero => intro n h; omega
  | succ fuel ih =>
    intro n h h1
    by_cases h10 : n < 10
    · intro hc
      simp only [uitoaAux, if_pos h10, List.head?_cons, Option.some_inj] at hc
      interval_cases n <;> exact absurd hc (by decide)
    · simp only [uitoaAux, if_neg h10]
      have hdiv : n / 10 < fuel := by
        have := Nat.div_lt_self (by omega : 0 < n) (by omega : 1 < 10)
        omega
      have hne := uitoaAux_ne_nil fuel (n / 10) hdiv
      have hh := ih (n / 10) hdiv (by omega)
      cases hu : uitoaAux fuel (n / 10) with
      | nil => exact absurd hu hne
      | cons a l =>
        rw [hu] at hh
        simpa using hh

lemma uitoa_decVal (n : Nat) : decValAux (uitoa n).data 0 = some n := by
  have := uitoaAux_decVal (n + 1) n 0 (by omega)
  simpa [uitoa] using this

lemma uitoa_digits (n : Nat) : ∀ c ∈ (uitoa n).data, (digitVal c).isSome :=
  uitoaAux_digits (n + 1) n (by omega)

lemma uitoa_head (n : Nat) (h : 1 ≤ n) : (uitoa n).data.head? ≠ some '0' :=
  uitoaAux_head (n + 1) n (by omega) h

lemma uitoa_ne_nil (n : Nat) : (uitoa n).data ≠ [] :=
  uitoaAux_ne_nil (n + 1) n (by omega)

/-! ## Helper lemmas: the jitter draw and a single production step -/

lemma toInt64_eq (x : Nat) (hx : x < U64) :
    toInt64 x = if x < 2 ^ 63 then (x : Int) else (x : Int) - (U64 : Int) := by
  rw [toInt64, Nat.mod_eq_of_lt hx]

lemma toInt64_of_lt (x : Nat) (h : x < 2 ^ 63) : toInt64 x = (x : Int) := by
  rw [toInt64_eq x (by unfold U64; omega), if_pos h]

lemma jitterAmount_eq (jit : Nat) (hj : jit + 1 < 2 ^ 63) (draw : Nat) :
    jitterAmount jit draw = some (draw % (jit + 1)) := by
  have h1 : (jit + 1) % U64 = jit + 1 :=
    Nat.mod_eq_of_lt (by unfold U64; omega)
  rw [jitterAmount, h1, toInt64_of_lt _ hj, randInt63n,
    if_neg (by omega), Int.toNat_natCast]

lemma stepSample_eq (jit : Nat) (hj : jit + 1 < 2 ^ 63) (draw s : Nat) :
    stepSample jit draw s = some ((s + 1 + draw % (jit + 1)) % U64) := by
  rw [stepSample, jitterAmount_eq jit hj draw]
  rfl

lemma stepSample_bound (jit draw s s' : Nat)
    (h : stepSample jit draw s = some s') :
    ∃ d, 1 ≤ d ∧ d ≤ jit + 1 ∧ s' = (s + d) % U64 := by
  rw [stepSample, jitterAmount, randInt63n] at h
  have hvU : (jit + 1) % U64 < U64 := Nat.mod_lt _ (by norm_num [U64])
  have hvle : (jit + 1) % U64 ≤ jit + 1 := Nat.mod_le _ _
  rw [toInt64_eq _ hvU] at h
  by_cases hc : (jit + 1) % U64 < 2 ^ 63
  · rw [if_pos hc] at h
    by_cases hz : (jit + 1) % U64 = 0
    · rw [hz] at h
      simp at h
    · rw [if_neg (by omega), Int.toNat_natCast] at h
      simp only [Option.map_some', Option.some.injEq] at h
      refine ⟨1 + draw % ((jit + 1) % U64), by omega, ?_, ?_⟩
      · have hlt : draw % ((jit + 1) % U64) < (jit + 1) % U64 :=
          Nat.mod_lt _ (by omega)
        omega
      · rw [← h, Nat.add_assoc]
  · rw [if_neg hc] at h
    have hneg : (((jit + 1) % U64 : Nat) : Int) - (U64 : Int) ≤ 0 := by
      have : (((jit + 1) % U64 : Nat) : Int) < (U64 : Int) := by
        exact_mod_cast hvU
      omega
    rw [if_pos hneg] at h
    simp at h

lemma stepSample_isSome (jit : Nat) (hj : jit + 1 < 2 ^ 63) (draw s : Nat) :
    (stepSample jit draw s).isSome := by
  rw [stepSample_eq jit hj draw s]
  rfl

lemma stepSample_lt (jit draw s s' : Nat)
    (h : stepSample jit draw s = some s') : s' < U64 := by
  obtain ⟨d, _, _, hd⟩ := stepSample_bound jit draw s s' h
  rw [hd]
  exact Nat.mod_lt _ (by norm_num [U64])

/-! ## Helper lemmas: the production loop -/

lemma nextBatchLoop_events (jit : Nat) (draws : Nat → Nat) (w : Nat → Bool) :
    ∀ (fuel : Nat) (m : MyInstance) (n : Nat) (acc : List (Nat × String)),
      (∀ e ∈ acc, e.2 = itoa64 e.1 ∧ e.1 < U64) →
      ∀ e ∈ (nextBatchLoop jit draws w m n fuel acc).events,
        e.2 = itoa64 e.1 ∧ e.1 < U64 := by
  intro fuel
  induction fuel with
  | zero =>
    intro m n acc hacc e he
    simp only [nextBatchLoop, NBOutcome.events, List.mem_reverse] at he
    exact hacc e he
  | succ fuel ih =>
    intro m n acc hacc e he
    by_cases hc : m.counter < m.maxEvents
    · rw [nextBatchLoop, if_pos hc] at he
      cases hstep : stepSample jit (draws n) m.sample with
      | none =>
        rw [hstep] at he
        simp [NBOutcome.events] at he
      | some s =>
        rw [hstep] at he
        dsimp only at he
        by_cases hw : w n = true
        · rw [if_pos hw] at he
          refine ih _ _ _ ?_ e he
          intro e' he'
          rcases List.mem_cons.mp he' with h | h
          · subst h
            exact ⟨rfl, stepSample_lt jit (draws n) m.sample s hstep⟩
          · exact hacc e' h
        · rw [if_neg hw] at he
          simp only [NBOutcome.events, List.mem_reverse] at he
          exact hacc e he
    · rw [nextBatchLoop, if_neg hc] at he
      simp only [NBOutcome.events, List.mem_reverse] at he
      exact hacc e he

lemma nextBatchLoop_counterInv (jit : Nat) (draws : Nat → Nat) (w : Nat → Bool) :
    ∀ (fuel : Nat) (m : MyInstance) (n : Nat) (acc : List (Nat × String)),
      m.counter ≤ m.maxEvents →
      counterInv (nextBatchLoop jit draws w m n fuel acc) := by
  intro fuel
  induction fuel with
  | zero =>
    intro m n acc hm
    simp only [nextBatchLoop, counterInv, NBOutcome.inst?]
    intro m' hm'
    simp only [Option.mem_def, Option.some_inj] at hm'
    subst hm'
    exact hm
  | succ fuel ih =>
    intro m n acc hm
    rw [nextBatchLoop]
    by_cases hc : m.counter < m.maxEvents
    · rw [if_pos hc]
      cases hstep : stepSample jit (draws n) m.sample with
      | none =>
        intro m' hm'
        simp [NBOutcome.inst?] at hm'
      | some s =>
        dsimp only
        by_cases hw : w n = true
        · rw [if_pos hw]
          exact ih _ _ _ (by simp; omega)
        · rw [if_neg hw]
          intro m' hm'
          simp only [NBOutcome.inst?, Option.mem_def, Option.some_inj] at hm'
          subst hm'
          simp
          omega
    · rw [if_neg hc]
      intro m' hm'
      simp only [NBOutcome.inst?, Option.mem_def, Option.some_inj] at hm'
      subst hm'
      exact hm

lemma range_succ_cons {α : Type} (t : Nat) (f : Nat → α) :
    (List.range (t + 1)).map f = f 0 :: (List.range t).map (fun i => f (i + 1)) := by
  rw [List.range_succ_eq_map, List.map_cons, List.map_map]
  rfl

lemma nextBatchLoop_true (jit : Nat) (hj : jit + 1 < 2 ^ 63) (draws : Nat → Nat)
    (w : Nat → Bool) (hw : ∀ i, w i = true) :
    ∀ (fuel : Nat) (m : MyInstance) (n : Nat) (acc : List (Nat × String)),
      m.counter ≤ m.maxEvents → m.sample < U64 →
      ∃ m' evs,
        nextBatchLoop jit draws w m n fuel acc
          = .ok (n + min fuel (m.maxEvents - m.counter)) m' (acc.reverse ++ evs)
        ∧ m'.maxEvents = m.maxEvents
        ∧ m'.counter = m.counter + min fuel (m.maxEvents - m.counter)
        ∧ m'.sample < U64
        ∧ evs.length = min fuel (m.maxEvents - m.counter)
        ∧ (jit = 0 →
            m'.sample = (m.sample + min fuel (m.maxEvents - m.counter)) % U64
            ∧ evs.map Prod.fst
              = (List.range (min fuel (m.maxEvents - m.counter))).map
                  (fun i => (m.sample + i + 1) % U64)) := by
  intro fuel
  induction fuel with
  | zero =>
    intro m n acc hm hs
    refine ⟨m, [], ?_, rfl, by simp, hs, by simp, fun _ => ⟨?_, by simp⟩⟩
    · simp [nextBatchLoop]
    · simp [Nat.mod_eq_of_lt hs]
  | succ fuel ih =>
    intro m n acc hm hs
    by_cases hc : m.counter < m.maxEvents
    · have hstep := stepSample_eq jit hj (draws n) m.sample
      set s1 := (m.sample + 1 + draws n % (jit + 1)) % U64 with hs1
      have hs1U : s1 < U64 := by
        rw [hs1]
        exact Nat.mod_lt _ (by norm_num [U64])
      obtain ⟨m', evs', hA', hB', hC', hD', hE', hF'⟩ :=
        ih ⟨m.maxEvents, m.counter + 1, s1⟩ (n + 1) ((s1, itoa64 s1) :: acc)
          (by simp; omega) hs1U
      dsimp only at hA' hB' hC' hE' hF'
      have hmin : min (fuel + 1) (m.maxEvents - m.counter)
          = min fuel (m.maxEvents - (m.counter + 1)) + 1 := by omega
      have hstep_eq : nextBatchLoop jit draws w m n (fuel + 1) acc
          = nextBatchLoop jit draws w ⟨m.maxEvents, m.counter + 1, s1⟩
              (n + 1) fuel ((s1, itoa64 s1) :: acc) := by
        rw [nextBatchLoop, if_pos hc, hstep]
        dsimp only
        rw [if_pos (hw n)]
      refine ⟨m', (s1, itoa64 s1) :: evs', ?_, hB', by omega, hD', ?_, ?_⟩
      · rw [hstep_eq, hA', hmin]
        congr 1
        · omega
        · simp
      · simp only [List.length_cons, hE']
        omega
      · intro hj0
        subst hj0
        obtain ⟨hFs, hFm⟩ := hF' rfl
        have hs1' : s1 = (m.sample + 1) % U64 := by
          rw [hs1]
          simp [Nat.mod_one]
        constructor
        · rw [hFs, hs1', Nat.mod_add_mod, hmin]
          congr 1
          omega
        · rw [List.map_cons, hmin, range_succ_cons, hFm]
          have hhead : s1 = (m.sample + 0 + 1) % U64 := by
            rw [hs1']
          have htail : (List.range (fuel ⊓ (m.maxEvents - (m.counter + 1)))).map
                (fun i => (s1 + i + 1) % U64)
              = (List.range (fuel ⊓ (m.maxEvents - (m.counter + 1)))).map
                (fun i => (m.sample + (i + 1) + 1) % U64) := by
            apply List.map_congr_left
            intro i _
            rw [hs1', Nat.add_assoc _ i 1, Nat.mod_add_mod]
            congr 1
            omega
          exact congrArg₂ List.cons hhead htail
    · have hR : m.maxEvents - m.counter = 0 := by omega
      refine ⟨m, [], ?_, rfl, by simp [hR], hs, by simp [hR],
        fun _ => ⟨?_, by simp [hR]⟩⟩
      · rw [nextBatchLoop, if_neg hc]
        simp [hR]
      · simp [hR, Nat.mod_eq_of_lt hs]

lemma nextBatchLoop_chain (jit : Nat) (draws : Nat → Nat) (w : Nat → Bool) :
    ∀ (fuel : Nat) (m : MyInstance) (n : Nat) (acc : List (Nat × String)),
      (∃ evs', (nextBatchLoop jit draws w m n fuel acc).events
          = acc.reverse ++ evs' ∧ sampleChain jit m.sample (evs'.map Prod.fst))
      ∨ nextBatchLoop jit draws w m n fuel acc = .panic := by
  intro fuel
  induction fuel with
  | zero =>
    intro m n acc
    left
    exact ⟨[], by simp [nextBatchLoop, NBOutcome.events], by simp [sampleChain]⟩
  | succ fuel ih =>
    intro m n acc
    by_cases hc : m.counter < m.maxEvents
    · rw [nextBatchLoop, if_pos hc]
      cases hstep : stepSample jit (draws n) m.sample with
      | none =>
        right
        rfl
      | some s =>
        dsimp only
        by_cases hw : w n = true
        · rw [if_pos hw]
          rcases ih ⟨m.maxEvents, m.counter + 1, s⟩ (n + 1)
              ((s, itoa64 s) :: acc) with ⟨evs', hev, hch⟩ | hp
          · left
            dsimp only at hev hch
            refine ⟨(s, itoa64 s) :: evs', ?_, ?_⟩
            · rw [hev]
              simp
            · exact ⟨stepSample_bound jit (draws n) m.sample s hstep, hch⟩
          · right
            exact hp
        · rw [if_neg hw]
          left
          exact ⟨[], by simp [NBOutcome.events], by simp [sampleChain]⟩
    · rw [nextBatchLoop, if_neg hc]
      left
      exact ⟨[], by simp [NBOutcome.events], by simp [sampleChain]⟩

lemma nextBatchLoop_fail (jit : Nat) (hj : jit + 1 < 2 ^ 63) (draws : Nat → Nat)
    (w : Nat → Bool) :
    ∀ (k : Nat) (m : MyInstance) (n fuel : Nat) (acc : List (Nat × String)),
      (∀ i, i < k → w (n + i) = true) → w (n + k) = false →
      k < fuel → m.counter + k < m.maxEvents →
      ∃ m' evs,
        nextBatchLoop jit draws w m n fuel acc = .writeError m' (acc.reverse ++ evs)
        ∧ m'.maxEvents = m.maxEvents
        ∧ m'.counter = m.counter + k + 1
        ∧ evs.length = k := by
  intro k
  induction k with
  | zero =>
    intro m n fuel acc hfore hfail hk hcm
    cases fuel with
    | zero => omega
    | succ fuel =>
      have hc : m.counter < m.maxEvents := by omega
      have hstep := stepSample_eq jit hj (draws n) m.sample
      have hfail' : w n = false := hfail
      rw [nextBatchLoop, if_pos hc, hstep]
      dsimp only
      rw [if_neg (by simp [hfail'])]
      exact ⟨⟨m.maxEvents, m.counter + 1,
          (m.sample + 1 + draws n % (jit + 1)) % U64⟩, [],
        by simp, rfl, rfl, rfl⟩
  | succ k ihk =>
    intro m n fuel acc hfore hfail hk hcm
    cases fuel with
    | zero => omega
    | succ fuel =>
      have hc : m.counter < m.maxEvents := by omega
      have hstep := stepSample_eq jit hj (draws n) m.sample
      set s1 := (m.sample + 1 + draws n % (jit + 1)) % U64 with hs1
      rw [nextBatchLoop, if_pos hc, hstep]
      dsimp only
      have hw0 : w n = true := hfore 0 (by omega)
      rw [if_pos hw0]
      obtain ⟨m', evs, heq, hmax, hcnt, hlen⟩ :=
        ihk ⟨m.maxEvents, m.counter + 1, s1⟩ (n + 1) fuel ((s1, itoa64 s1) :: acc)
          (fun i hi => by
            have h := hfore (i + 1) (by omega)
            rwa [show n + (i + 1) = n + 1 + i from by omega] at h)
          (by
            have h := hfail
            rwa [show n + (k + 1) = n + 1 + k from by omega] at h)
          (by omega) (by dsimp only; omega)
      dsimp only at hmax hcnt
      refine ⟨m', (s1, itoa64 s1) :: evs, ?_, hmax, by omega, by simp [hlen]⟩
      rw [heq]
      congr 1
      simp

lemma NextBatch_eof (jit : Nat) (draws : Nat → Nat) (w : Nat → Bool)
    (m : MyInstance) (cap : Nat) (h : m.maxEvents ≤ m.counter) :
    NextBatch jit draws w m cap = .eof m := by
  rw [NextBatch, if_pos h]

lemma NextBatch_true (jit : Nat) (hj : jit + 1 < 2 ^ 63) (draws : Nat → Nat)
    (w : Nat → Bool) (hw : ∀ i, w i = true) (m : MyInstance) (cap : Nat)
    (hc : m.counter < m.maxEvents) (hs : m.sample < U64) :
    ∃ m' evs,
      NextBatch jit draws w m cap
        = .ok (min cap (m.maxEvents - m.counter)) m' evs
      ∧ m'.maxEvents = m.maxEvents
      ∧ m'.counter = m.counter + min cap (m.maxEvents - m.counter)
      ∧ m'.sample < U64
      ∧ evs.length = min cap (m.maxEvents - m.counter)
      ∧ (jit = 0 →
          m'.sample = (m.sample + min cap (m.maxEvents - m.counter)) % U64
          ∧ evs.map Prod.fst
            = (List.range (min cap (m.maxEvents - m.counter))).map
                (fun i => (m.sample + i + 1) % U64)) := by
  obtain ⟨m', evs, hA, hB, hC, hD, hE, hF⟩ :=
    nextBatchLoop_true jit hj draws w hw cap m 0 [] (by omega) hs
  simp only [Nat.zero_add, List.reverse_nil, List.nil_append] at hA
  exact ⟨m', evs, by rw [NextBatch, if_neg (by omega)]; exact hA,
    hB, hC, hD, hE, hF⟩

lemma runCalls_exhausted (jit : Nat) (draws : Nat → Nat) :
    ∀ (caps : List Nat) (m : MyInstance), m.maxEvents ≤ m.counter →
      runCalls jit draws m caps = (0, m, []) := by
  intro caps
  induction caps with
  | nil =>
    intro m h
    rfl
  | cons cap rest ih =>
    intro m h
    rw [runCalls, NextBatch_eof jit _ _ m cap h]
    exact ih m h

lemma runCalls_true (jit : Nat) (hj : jit + 1 < 2 ^ 63) (draws : Nat → Nat) :
    ∀ (caps : List Nat) (m : MyInstance),
      m.counter ≤ m.maxEvents → m.sample < U64 →
      ∃ mf evs,
        runCalls jit draws m caps
          = (min (m.maxEvents - m.counter) caps.sum, mf, evs)
        ∧ mf.maxEvents = m.maxEvents
        ∧ mf.counter = m.counter + min (m.maxEvents - m.counter) caps.sum
        ∧ mf.sample < U64
        ∧ evs.length = min (m.maxEvents - m.counter) caps.sum
        ∧ (jit = 0 →
            mf.sample = (m.sample + min (m.maxEvents - m.counter) caps.sum) % U64
            ∧ evs.map Prod.fst
              = (List.range (min (m.maxEvents - m.counter) caps.sum)).map
                  (fun i => (m.sample + i + 1) % U64)) := by
  intro caps
  induction caps with
  | nil =>
    intro m hm hs
    refine ⟨m, [], by simp [runCalls], rfl, by simp, hs, by simp,
      fun _ => ⟨by simp [Nat.mod_eq_of_lt hs], by simp⟩⟩
  | cons cap rest ih =>
    intro m hm hs
    by_cases hcm : m.counter < m.maxEvents
    · obtain ⟨m', evs1, hA, hB, hC, hD, hE, hF⟩ :=
        NextBatch_true jit hj (fun k => draws (m.counter + k)) (fun _ => true)
          (fun _ => rfl) m cap hcm hs
      obtain ⟨mf, evs2, h1, h2, h3, h4, h5, h6⟩ := ih m' (by omega) hD
      rw [hB, hC] at h1 h3 h5 h6
      rw [hB] at h2
      refine ⟨mf, evs1 ++ evs2, ?_, h2, ?_, h4, ?_, ?_⟩
      · rw [runCalls, hA]
        dsimp only
        rw [h1]
        simp only [List.sum_cons, Prod.mk.injEq]
        exact ⟨by omega, trivial⟩
      · simp only [List.sum_cons]
        omega
      · simp only [List.length_append, hE, h5, List.sum_cons]
        omega
      · intro hj0
        obtain ⟨hFs, hFm⟩ := hF hj0
        obtain ⟨h6s, h6m⟩ := h6 hj0
        simp only [hFs] at h6s h6m
        constructor
        · rw [h6s, Nat.mod_add_mod]
          simp only [List.sum_cons]
          congr 1
          omega
        · have htr : min (m.maxEvents - m.counter) (cap + rest.sum)
              = min cap (m.maxEvents - m.counter)
                + min (m.maxEvents - (m.counter
                    + min cap (m.maxEvents - m.counter))) rest.sum := by
            omega
          rw [List.map_append, hFm, h6m, List.sum_cons, htr, List.range_add,
            List.map_append, List.map_map]
          congr 1
          apply List.map_congr_left
          intro i _
          dsimp only [Function.comp]
          rw [Nat.add_assoc _ i 1, Nat.mod_add_mod]
          congr 1
          omega
    · have hR : m.maxEvents - m.counter = 0 := by omega
      obtain ⟨mf, evs, h1, h2, h3, h4, h5, h6⟩ := ih m hm hs
      rw [hR] at h1 h3 h5 h6
      simp only [Nat.zero_min] at h1 h3 h5 h6
      refine ⟨mf, evs, ?_, h2, by simp [hR]; omega, h4, by simp [hR, h5],
        fun hj0 => ?_⟩
      · rw [runCalls, NextBatch_eof jit _ _ m cap (by omega)]
        dsimp only
        rw [h1]
        simp [hR]
      · obtain ⟨h6s, h6m⟩ := h6 hj0
        exact ⟨by simp [hR, h6s], by simp [hR, h6m]⟩

lemma itoa64_lt (s : Nat) (h : s < 2 ^ 63) : itoa64 s = uitoa s := by
  rw [itoa64, toInt64_of_lt s h, itoa, if_neg (by omega), Int.toNat_natCast]

lemma itoa64_ge (s : Nat) (h1 : 2 ^ 63 ≤ s) (h2 : s < U64) :
    itoa64 s = "-" ++ uitoa (U64 - s) := by
  have hU : ((U64 : Nat) : Int) = (U64 : Int) := rfl
  rw [itoa64, toInt64_eq s h2, if_neg (by omega), itoa,
    if_pos (by
      have : (s : Int) < (U64 : Nat) := by exact_mod_cast h2
      omega)]
  congr 1
  have : (-((s : Int) - ((U64 : Nat) : Int))).toNat = U64 - s := by
    have : (s : Int) < (U64 : Nat) := by exact_mod_cast h2
    omega
  rw [this]

/-! ## Claim theorems -/

/-- Claim C5: Extract on a payload that decodes as a decimal integer:
field id 0 with an argument parsing to a (non-zero, cf. C6) divisor d
yields uint64 1 iff the decoded value mod d is 0 and 0 otherwise (payload
"42" with argument "7" gives 1, with "5" gives 0); field id 1 yields the
decoded integer (42 for "42"); field id 2 yields the original payload
string verbatim; any other field id fails naming the unknown field. -/
theorem extract_dispatch_correct (payload arg field : String) (v d : Int)
    (hv : atoi payload = .ok v) (hd : atoi arg = .ok d) (hd0 : d ≠ 0)
    (id : Nat) (hid : 3 ≤ id) :
    Extract 0 field arg payload
      = .ok (.u64 (if Int.tmod v d = 0 then 1 else 0))
    ∧ Extract 1 field arg payload = .ok (.u64 ((v % (U64 : Int)).toNat))
    ∧ Extract 2 field arg payload = .ok (.str payload)
    ∧ Extract id field arg "42" = .err ("no known field: " ++ field)
    ∧ Extract 0 field "7" "42" = .ok (.u64 1)
    ∧ Extract 0 field "5" "42" = .ok (.u64 0)
    ∧ Extract 1 field arg "42" = .ok (.u64 42)
    ∧ Extract 2 field arg "42" = .ok (.str "42") := by
  refine ⟨?_, ?_, ?_, ?_, ?_, ?_, ?_, ?_⟩
  · unfold Extract
    rw [hv]
    dsimp only
    rw [hd]
    dsimp only
    rw [if_neg hd0]
    by_cases h : Int.tmod v d = 0 <;> simp [h]
  · unfold Extract
    rw [hv]
    norm_num
  · unfold Extract
    rw [hv]
    norm_num
  · unfold Extract
    rw [show atoi "42" = .ok 42 from rfl]
    dsimp only
    rw [if_neg (by omega), if_neg (by omega), if_neg (by omega)]
  · rfl
  · rfl
  · unfold Extract
    rw [show atoi "42" = .ok 42 from rfl]
    norm_num
    decide
  · unfold Extract
    rw [show atoi "42" = .ok 42 from rfl]
    norm_num

theorem extract_dispatch_correct_witness :
    atoi "42" = .ok 42 ∧ atoi "7" = .ok 7 ∧ (7 : Int) ≠ 0 ∧ 3 ≤ 99
    ∧ (Extract 0 "dummy.divisible" "7" "42"
        = .ok (.u64 (if Int.tmod 42 7 = 0 then 1 else 0))
      ∧ Extract 1 "dummy.divisible" "7" "42"
        = .ok (.u64 (((42 : Int) % (U64 : Int)).toNat))
      ∧ Extract 2 "dummy.divisible" "7" "42" = .ok (.str "42")
      ∧ Extract 99 "dummy.divisible" "7" "42"
        = .err ("no known field: " ++ "dummy.divisible")
      ∧ Extract 0 "dummy.divisible" "7" "42" = .ok (.u64 1)
      ∧ Extract 0 "dummy.divisible" "5" "42" = .ok (.u64 0)
      ∧ Extract 1 "dummy.divisible" "7" "42" = .ok (.u64 42)
      ∧ Extract 2 "dummy.divisible" "7" "42" = .ok (.str "42")) :=
  ⟨rfl, rfl, by decide, by decide,
    extract_dispatch_correct "42" "7" "dummy.divisible" 42 7 rfl rfl
      (by decide) 99 (by decide)⟩

/-- Claim C6 counterexample: Extract of dummy.divisible with argument "0"
on payload "42" reaches the division with a zero divisor and is a runtime
fault (panic), not a typed error returned to the caller. -/
theorem extract_divzero_cex :
    Extract 0 "dummy.divisible" "0" "42" = .panic
    ∧ (Extract 0 "dummy.divisible" "0" "42").isErr = false :=
  ⟨rfl, rfl⟩

/-- Claim C6 (amended): for any payload that decodes and any argument
parsing to the divisor 0, the dummy.divisible branch executes the division
with a zero divisor and propagates a runtime fault (panic); it does not
return an InvalidArgument (or any) typed error. -/
theorem extract_divzero_panics (field arg payload : String) (v : Int)
    (hv : atoi payload = .ok v) (hd : atoi arg = .ok 0) :
    Extract 0 field arg payload = .panic := by
  unfold Extract
  rw [hv]
  dsimp only
  rw [hd]
  norm_num

theorem extract_divzero_panics_witness :
    atoi "7" = .ok 7 ∧ atoi "0" = .ok 0
    ∧ Extract 0 "dummy.divisible" "0" "7" = ExtractResult.panic :=
  ⟨rfl, rfl, extract_divzero_panics "dummy.divisible" "0" "7" 7 rfl rfl⟩

/-- Claim C9: payload decoding in Extract uses signed parsing
(strconv.Atoi): "-5" is accepted and field id 1 converts it to uint64
modulo 2^64, giving 2^64 - 5; the valid unsigned decimal
"18446744073709551615" (2^64 - 1, above the int64 maximum) is rejected
as a malformed payload. -/
theorem atoi_signed_parsing :
    atoi "-5" = .ok (-5)
    ∧ Extract 1 "dummy.value" "" "-5" = .ok (.u64 (2 ^ 64 - 5))
    ∧ atoi "18446744073709551615"
      = .error "strconv.Atoi: parsing 18446744073709551615: value out of range"
    ∧ Extract 1 "dummy.value" "" "18446744073709551615"
      = .err "strconv.Atoi: parsing 18446744073709551615: value out of range" :=
  ⟨rfl, rfl, rfl, rfl⟩

/-- Claim C10: renderEvent (the String method) performs no payload
validation: it fails exactly when reading the payload stream fails
(propagating that error), and for any successfully read byte sequence,
decimal or not, it succeeds with exactly the JSON-style string wrapping the
raw bytes verbatim. -/
theorem eventString_verbatim (bytes e : String) :
    eventString (.ok bytes) = .ok ("\x7b\"sample\": \"" ++ bytes ++ "\"\x7d")
    ∧ eventString (.error e) = .error e :=
  ⟨rfl, rfl⟩

/-- Claim C3 counterexample: for the configured jitter bound 2^63 - 1
(a value the configuration accepts), int64(jitter + 1) is not positive,
so the production step panics inside rand.Int63n instead of increasing
the sample by 1 + uniformRandom(0, J): no bounded increment happens. -/
theorem jitter_step_panic_cex :
    stepSample (2 ^ 63 - 1) 0 0 = none
    ∧ NextBatch (2 ^ 63 - 1) (fun _ => 0) (fun _ => true) ⟨1, 0, 0⟩ 1
      = .panic :=
  ⟨rfl, rfl⟩

/-- Claim C3 (amended): whenever a production step completes (the jitter
draw does not panic, which requires int64(jitter + 1) > 0), the new sample
is (old + d) mod 2^64 for some d with 1 ≤ d ≤ jitter + 1; consequently the
successive samples of every successful batch form a chain whose
differences modulo 2^64 lie in [1, jitter + 1]. -/
theorem jitter_step_increment_bounds (jit draw s s' : Nat)
    (hs : stepSample jit draw s = some s')
    (draws : Nat → Nat) (w : Nat → Bool) (m : MyInstance) (cap n : Nat)
    (m' : MyInstance) (evs : List (Nat × String))
    (hok : NextBatch jit draws w m cap = .ok n m' evs) :
    sampleChain jit s [s']
    ∧ sampleChain jit m.sample (evs.map Prod.fst) := by
  constructor
  · exact ⟨stepSample_bound jit draw s s' hs, trivial⟩
  · rw [NextBatch] at hok
    by_cases hc : m.maxEvents ≤ m.counter
    · rw [if_pos hc] at hok
      simp at hok
    · rw [if_neg hc] at hok
      rcases nextBatchLoop_chain jit draws w cap m 0 [] with ⟨evs', hev, hch⟩ | hp
      · rw [hok] at hev
        simp only [NBOutcome.events, List.reverse_nil, List.nil_append] at hev
        rw [hev]
        exact hch
      · rw [hok] at hp
        simp at hp

theorem jitter_step_increment_bounds_witness :
    stepSample 0 0 0 = some 1
    ∧ NextBatch 0 (fun _ => 0) (fun _ => true) ⟨1, 0, 0⟩ 1
      = .ok 1 ⟨1, 1, 1⟩ [(1, "1")]
    ∧ sampleChain 0 0 [1]
    ∧ sampleChain 0 0 [1] :=
  have h := jitter_step_increment_bounds 0 0 0 1 rfl (fun _ => 0)
    (fun _ => true) ⟨1, 0, 0⟩ 1 1 ⟨1, 1, 1⟩ [(1, "1")] rfl
  ⟨rfl, rfl, h.1, h.2⟩

/-- Claim C7 counterexample: a session opened with start 2^64 - 1 and
jitter 0 produces a first event whose sample wraps to 0, strictly smaller
than the session's initial sample: sample is not monotonically
non-decreasing over the session's lifetime. -/
theorem sample_monotonic_cex :
    NextBatch 0 (fun _ => 0) (fun _ => true) (openInstance (2 ^ 64 - 1) 1) 1
      = .ok 1 ⟨1, 1, 0⟩ [(0, "0")]
    ∧ (⟨1, 1, 0⟩ : MyInstance).sample < (openInstance (2 ^ 64 - 1) 1).sample :=
  ⟨rfl, by decide⟩

/-- Claim C7 (amended): counter ≤ maxEvents is preserved by every
NextBatch call (any write oracle, jitter and draws); the sample is
non-decreasing on every production step whose uint64 addition does not
wrap, but a wrap (reachable, cf. the counterexample) strictly decreases
it. -/
theorem counter_invariant_sample_monotone (jit : Nat) (draws : Nat → Nat)
    (w : Nat → Bool) (m : MyInstance) (cap : Nat)
    (hm : m.counter ≤ m.maxEvents)
    (jd s s' : Nat) (hstep : stepSample jit jd s = some s')
    (hnw : s + jit + 1 < U64) :
    counterInv (NextBatch jit draws w m cap) ∧ s ≤ s' := by
  constructor
  · rw [NextBatch]
    by_cases hc : m.maxEvents ≤ m.counter
    · rw [if_pos hc]
      intro m' hm'
      simp only [NBOutcome.inst?, Option.mem_def, Option.some_inj] at hm'
      subst hm'
      exact hm
    · rw [if_neg hc]
      exact nextBatchLoop_counterInv jit draws w cap m 0 [] hm
  · obtain ⟨d, hd1, hd2, hd3⟩ := stepSample_bound jit jd s s' hstep
    rw [hd3, Nat.mod_eq_of_lt (by omega)]
    omega

theorem counter_invariant_sample_monotone_witness :
    counterInv (NextBatch 0 (fun _ => 0) (fun _ => true) ⟨1, 0, 0⟩ 1)
    ∧ (0 : Nat) ≤ 1 :=
  have h := counter_invariant_sample_monotone 0 (fun _ => 0) (fun _ => true)
    ⟨1, 0, 0⟩ 1 (by norm_num) 0 0 1 rfl (by norm_num [U64])
  ⟨h.1, h.2⟩

/-- Claim C8 counterexample: from sample 2^63 - 1 the next sample is 2^63,
a reachable value at which the payload, rendered through
strconv.Itoa(int(sample)), is "-9223372036854775808": it carries a sign
and is not the decimal digit rendering of the sample. -/
theorem payload_signed_cex :
    NextBatch 0 (fun _ => 0) (fun _ => true) ⟨1, 0, 2 ^ 63 - 1⟩ 1
      = .ok 1 ⟨1, 1, 2 ^ 63⟩ [(2 ^ 63, "-9223372036854775808")]
    ∧ "-9223372036854775808" ≠ uitoa (2 ^ 63)
    ∧ '-' ∈ "-9223372036854775808".data :=
  ⟨rfl, by decide, by decide⟩

/-- Claim C8 (amended): every event payload is strconv.Itoa(int(sample)).
For sample values below 2^63 this is the plain decimal digit rendering of
the sample (parses back to it, digits only so no sign, no leading zero);
for reachable samples at or above 2^63 the payload is "-" followed by the
decimal rendering of 2^64 - sample. -/
theorem payload_rendering (jit : Nat) (draws : Nat → Nat) (w : Nat → Bool)
    (m : MyInstance) (cap : Nat) (s : Nat) (p : String)
    (hmem : (s, p) ∈ (NextBatch jit draws w m cap).events) :
    p = itoa64 s ∧ s < U64
    ∧ (s < 2 ^ 63 → p = uitoa s ∧ decDigitsOf p s)
    ∧ (2 ^ 63 ≤ s → p = "-" ++ uitoa (U64 - s)) := by
  rw [NextBatch] at hmem
  by_cases hc : m.maxEvents ≤ m.counter
  · rw [if_pos hc] at hmem
    simp [NBOutcome.events] at hmem
  · rw [if_neg hc] at hmem
    have h := nextBatchLoop_events jit draws w cap m 0 [] (by simp)
      (s, p) hmem
    have h1 : p = itoa64 s := h.1
    have h2 : s < U64 := h.2
    refine ⟨h1, h2, fun hlt => ?_, fun hge => ?_⟩
    · have hp : p = uitoa s := by rw [h1, itoa64_lt s hlt]
      refine ⟨hp, ?_, ?_, fun hone => ?_⟩
      · rw [hp]
        exact uitoa_decVal s
      · rw [hp]
        exact uitoa_digits s
      · rw [hp]
        exact uitoa_head s hone
    · rw [h1, itoa64_ge s hge h2]

theorem payload_rendering_witness :
    "42" = itoa64 42 ∧ 42 < U64
    ∧ (42 < 2 ^ 63 → "42" = uitoa 42 ∧ decDigitsOf "42" 42)
    ∧ (2 ^ 63 ≤ 42 → "42" = "-" ++ uitoa (U64 - 42)) :=
  payload_rendering 0 (fun _ => 0) (fun _ => true) ⟨1, 0, 41⟩ 1 42 "42"
    (List.mem_singleton.mpr rfl)

/-- Claim C4 counterexample: with maxEvents 1, start 0, jitter 0 and the
write of the first event failing, NextBatch returns the write error with
zero events fully written, yet the session state has counter = 1 and
sample = 1: counter and sample already include the event whose write
failed, so they do not reflect only fully-completed productions, and a
retried call would skip that event instead of re-emitting it. -/
theorem write_failure_state_cex :
    NextBatch 0 (fun _ => 0) (fun _ => false) ⟨1, 0, 0⟩ 1
      = .writeError ⟨1, 1, 1⟩ []
    ∧ (⟨1, 1, 1⟩ : MyInstance).counter ≠ ([] : List (Nat × String)).length :=
  ⟨rfl, by decide⟩

/-- Claim C4 (amended): a write failure at batch index k (k prior writes
succeeded, write k failed, with room in the batch and in the session)
aborts the call with the write-error return; the k events written before
the failure keep their effects and their payloads are well-formed, but the
resulting counter is old counter + k + 1: the failed event is also counted
(and sample advanced for it), so a retried call resumes after it rather
than from the last successful event. -/
theorem write_failure_state (jit : Nat) (hj : jit + 1 < 2 ^ 63)
    (draws : Nat → Nat) (w : Nat → Bool) (k : Nat) (m : MyInstance)
    (cap : Nat) (hfore : ∀ i, i < k → w i = true) (hfail : w k = false)
    (hk : k < cap) (hcm : m.counter + k < m.maxEvents) :
    (NextBatch jit draws w m cap).isWriteError = true
    ∧ (NextBatch jit draws w m cap).inst?.map MyInstance.maxEvents
        = some m.maxEvents
    ∧ (NextBatch jit draws w m cap).inst?.map MyInstance.counter
        = some (m.counter + k + 1)
    ∧ (NextBatch jit draws w m cap).events.length = k
    ∧ eventsWellFormed (NextBatch jit draws w m cap) := by
  obtain ⟨m', evs, heq, hmax, hcnt, hlen⟩ :=
    nextBatchLoop_fail jit hj draws w k m 0 cap []
      (fun i hi => by rw [Nat.zero_add]; exact hfore i hi)
      (by rw [Nat.zero_add]; exact hfail) hk hcm
  have hNB : NextBatch jit draws w m cap = .writeError m' ([].reverse ++ evs) := by
    rw [NextBatch, if_neg (by omega)]
    exact heq
  simp only [List.reverse_nil, List.nil_append] at hNB
  rw [hNB]
  refine ⟨rfl, by simp [NBOutcome.inst?, hmax], by simp [NBOutcome.inst?, hcnt],
    by simp [NBOutcome.events, hlen], ?_⟩
  intro e he
  refine nextBatchLoop_events jit draws w cap m 0 [] (by simp) e ?_
  rw [heq]
  simpa [NBOutcome.events] using he

theorem write_failure_state_witness :
    (NextBatch 0 (fun _ => 0) (fun i => decide (i < 1)) ⟨2, 0, 0⟩ 2).isWriteError
      = true
    ∧ (NextBatch 0 (fun _ => 0) (fun i => decide (i < 1)) ⟨2, 0, 0⟩ 2).inst?.map
        MyInstance.maxEvents = some 2
    ∧ (NextBatch 0 (fun _ => 0) (fun i => decide (i < 1)) ⟨2, 0, 0⟩ 2).inst?.map
        MyInstance.counter = some 2
    ∧ (NextBatch 0 (fun _ => 0) (fun i => decide (i < 1)) ⟨2, 0, 0⟩ 2).events.length
        = 1
    ∧ eventsWellFormed (NextBatch 0 (fun _ => 0) (fun i => decide (i < 1)) ⟨2, 0, 0⟩ 2) :=
  write_failure_state 0 (by norm_num) (fun _ => 0) (fun i => decide (i < 1)) 1
    ⟨2, 0, 0⟩ 2 (fun i hi => decide_eq_true hi) rfl (by norm_num) (by norm_num)

lemma openInstance_counter (start maxE : Nat) :
    (openInstance start maxE).counter = 0 := rfl

lemma openInstance_max (start maxE : Nat) (h : maxE < U64) :
    (openInstance start maxE).maxEvents = maxE := by
  simp [openInstance, Nat.mod_eq_of_lt h]

lemma openInstance_sample_lt (start maxE : Nat) :
    (openInstance start maxE).sample < U64 :=
  Nat.mod_lt _ (by norm_num [U64])

lemma openInstance_counter_le (start maxE : Nat) :
    (openInstance start maxE).counter ≤ (openInstance start maxE).maxEvents := by
  simp [openInstance]

/-- Claim C1: a session opened with maxEvents = M produces exactly M
events in total over a sequence of NextBatch calls whose capacities sum to
at least M (all writes succeeding and the jitter draw non-panicking); and
any call made when counter already equals maxEvents returns EOF
immediately with the state untouched — before any production work, since
the check precedes the loop — and therefore indefinitely on every
subsequent call, which the run over any further capacity list shows. -/
theorem nextBatch_exhaustion_exact (jit : Nat) (hj : jit + 1 < 2 ^ 63)
    (draws : Nat → Nat) (S M : Nat) (hM : M < U64) (caps : List Nat)
    (hsum : M ≤ caps.sum) (mEx : MyInstance)
    (hEx : mEx.counter = mEx.maxEvents) (w : Nat → Bool) (cap : Nat)
    (capsEx : List Nat) :
    (runCalls jit draws (openInstance S M) caps).1 = M
    ∧ NextBatch jit draws w mEx cap = .eof mEx
    ∧ runCalls jit draws mEx capsEx = (0, mEx, []) := by
  refine ⟨?_, NextBatch_eof jit draws w mEx cap (by omega),
    runCalls_exhausted jit draws capsEx mEx (by omega)⟩
  obtain ⟨mf, evs, h1, _, _, _, _, _⟩ :=
    runCalls_true jit hj draws caps (openInstance S M)
      (openInstance_counter_le S M) (openInstance_sample_lt S M)
  rw [h1]
  show min ((openInstance S M).maxEvents - (openInstance S M).counter)
      caps.sum = M
  rw [openInstance_max S M hM, openInstance_counter]
  omega

theorem nextBatch_exhaustion_exact_witness :
    (runCalls 0 (fun _ => 0) (openInstance 0 3) [2, 2]).1 = 3
    ∧ NextBatch 0 (fun _ => 0) (fun _ => true) ⟨3, 3, 5⟩ 2 = .eof ⟨3, 3, 5⟩
    ∧ runCalls 0 (fun _ => 0) (⟨3, 3, 5⟩ : MyInstance) [2] = (0, ⟨3, 3, 5⟩, []) :=
  have h := nextBatch_exhaustion_exact 0 (by norm_num) (fun _ => 0) 0 3
    (by norm_num [U64]) [2, 2] (by norm_num) ⟨3, 3, 5⟩ rfl (fun _ => true) 2 [2]
  ⟨h.1, h.2.1, h.2.2⟩

/-- Claim C2 counterexample: with jitter 0 and start S = 2^64 - 1 the
first produced event (n = 1) carries sample 0, not S + 1 = 2^64: the
uint64 addition wraps, so the n-th sample is not exactly S + n for every
start value. -/
theorem zero_jitter_wrap_cex :
    NextBatch 0 (fun _ => 0) (fun _ => true) (openInstance (2 ^ 64 - 1) 1) 1
      = .ok 1 ⟨1, 1, 0⟩ [(0, "0")]
    ∧ (0 : Nat) ≠ 2 ^ 64 - 1 + 1 :=
  ⟨rfl, by norm_num⟩

/-- Claim C2 (amended): for jitter 0 and a session opened with start S,
the n-th produced sample (n ≥ 1, across any split of production into
batch calls with all writes succeeding) is exactly (S + n) mod 2^64, and
hence exactly S + n whenever S + n < 2^64. -/
theorem zero_jitter_nth_sample (draws : Nat → Nat) (S M : Nat)
    (caps : List Nat) (n : Nat) (h1 : 1 ≤ n)
    (h2 : n ≤ (runCalls 0 draws (openInstance S M) caps).1) :
    ((runCalls 0 draws (openInstance S M) caps).2.2.map Prod.fst)[n - 1]?
      = some ((S + n) % U64)
    ∧ (S + n < U64 →
        ((runCalls 0 draws (openInstance S M) caps).2.2.map Prod.fst)[n - 1]?
          = some (S + n)) := by
  obtain ⟨mf, evs, heq, _, _, _, _, h6⟩ :=
    runCalls_true 0 (by norm_num) draws caps (openInstance S M)
      (openInstance_counter_le S M) (openInstance_sample_lt S M)
  obtain ⟨_, h6m⟩ := h6 rfl
  rw [heq] at h2 ⊢
  dsimp only at h2 ⊢
  rw [h6m]
  have hmain : ((List.range
        (min ((openInstance S M).maxEvents - (openInstance S M).counter)
          caps.sum)).map
          (fun i => ((openInstance S M).sample + i + 1) % U64))[n - 1]?
      = some ((S + n) % U64) := by
    rw [List.getElem?_map, List.getElem?_range (by omega)]
    dsimp only [Option.map_some']
    congr 1
    show ((openInstance S M).sample + (n - 1) + 1) % U64 = (S + n) % U64
    have hstep : (openInstance S M).sample + (n - 1) + 1
        = S % U64 + n := by
      simp only [openInstance]
      omega
    rw [hstep, Nat.mod_add_mod]
  exact ⟨hmain, fun hlt => by rw [hmain, Nat.mod_eq_of_lt hlt]⟩

theorem zero_jitter_nth_sample_witness :
    1 ≤ 1 ∧ 1 ≤ (runCalls 0 (fun _ => 0) (openInstance 5 2) [2]).1
    ∧ ((runCalls 0 (fun _ => 0) (openInstance 5 2) [2]).2.2.map Prod.fst)[0]?
        = some ((5 + 1) % U64)
    ∧ (5 + 1 < U64 →
        ((runCalls 0 (fun _ => 0) (openInstance 5 2) [2]).2.2.map Prod.fst)[0]?
          = some (5 + 1)) :=
  have h := zero_jitter_nth_sample (fun _ => 0) 5 2 [2] 1 (by norm_num)
    (by decide)
  ⟨by norm_num, by decide, h.1, h.2⟩

theorem eventString_verbatim_witness :
    eventString (.ok "abc") = .ok "\x7b\"sample\": \"abc\"\x7d"
    ∧ eventString (.error "boom") = .error "boom" :=
  eventString_verbatim "abc" "boom"
